import Mathlib

/-!
Shallow embedding of the repository-manager core (`internal/config/config.go`)
of the `arbol` repository, together with proofs about its behaviour.

Conventions used throughout:

* Go strings are embedded as Lean `String`s, and the Go `strings` / `path/filepath`
  helpers that the source uses are re-implemented over character lists
  (`String.data`), so that everything evaluates inside the kernel.  All inputs in
  the source are UTF-8, and every helper below (prefix/suffix tests, splitting on
  `'.'` and `'/'`) is byte-position preserving for the characters involved, so
  working per `Char` agrees with Go's per-byte behaviour.
* Go maps (`map[string][]Repo`, `map[string]*Account`) are embedded as association
  lists.  The list order stands for one particular iteration order of the map;
  Go fixes the contents of a map but *not* its iteration order, which is chosen
  afresh (pseudo-randomly) for every `range` loop.
* Functions of the source that consult the environment (`os.UserHomeDir`) take the
  home directory as an explicit extra argument.
* Go's `error` results are embedded as `Option` values carrying the data that the
  corresponding `fmt.Errorf` call formats into its message.
-/

namespace Arbol

/-! ### Embeddings of the Go standard-library helpers used by `config.go` -/

/-- Embeds Go `strings.HasPrefix(s, pre)`: `s` begins with `pre`. -/
def stringsHasPrefix (s pre : String) : Bool :=
  pre.data.isPrefixOf s.data

/-- Embeds Go `strings.Contains(s, string(c))` for a one-character needle. -/
def stringsContainsChar (s : String) (c : Char) : Bool :=
  s.data.contains c

/-- Embeds Go `strings.TrimSuffix(s, suffix)`: drop `suffix` when present. -/
def stringsTrimSuffix (s suffix : String) : String :=
  if suffix.data.isSuffixOf s.data then
    String.mk (s.data.take (s.data.length - suffix.data.length))
  else s

/-- Embeds Go `strings.ReplaceAll(s, string(a), string(b))` for one-character
patterns (the source only replaces `"."` by `"/"` or `string(filepath.Separator)`). -/
def stringsReplaceAllChar (s : String) (a b : Char) : String :=
  String.mk (s.data.map (fun c => if c = a then b else c))

/-- Character-list core of Go `strings.Split(s, string(sep))` for a one-character
separator. `splitCh sep l` never returns `[]`; splitting the empty list yields
`[[]]`, matching Go's `Split("", ".") = [""]`. -/
def splitCh (sep : Char) : List Char → List (List Char)
  | [] => [[]]
  | c :: rest =>
    match splitCh sep rest with
    | [] => if c = sep then [[], []] else [[c]]
    | h :: t => if c = sep then [] :: h :: t else (c :: h) :: t

/-- Embeds Go `strings.Split(s, string(sep))` for a one-character separator. -/
def stringsSplit (s : String) (sep : Char) : List String :=
  (splitCh sep s.data).map String.mk

/-- Character-list core of Go `strings.Join(elems, ".")`. -/
def joinCh : List (List Char) → List Char
  | [] => []
  | [s] => s
  | s :: rest => s ++ '.' :: joinCh rest

/-- Embeds Go `strings.Join(elems, sep)`. -/
def stringsJoin (elems : List String) (sep : String) : String :=
  match elems with
  | [] => ""
  | [s] => s
  | s :: rest => s ++ sep ++ stringsJoin rest sep

/-- Embeds Go `filepath.Base(path)` (unix rules): strip trailing separators,
then keep everything after the last separator; `""` gives `"."`, an
all-separator path gives `"/"`. -/
def filepathBase (path : String) : String :=
  if path = "" then "."
  else
    let r := path.data.reverse.dropWhile (fun c => c = '/')
    let q := r.takeWhile (fun c => c ≠ '/')
    if q = [] then "/" else String.mk q.reverse

/-- One step of the segment-stack form of Go `filepath.Clean` (unix rules):
`""` and `"."` segments are dropped, `".."` pops a previous segment (except at
the root of a rooted path, and except on top of accumulated `".."`s of a
relative path), anything else is pushed. The stack is kept in reverse order. -/
def cleanPush (rooted : Bool) (stack : List String) (seg : String) : List String :=
  if seg = "" ∨ seg = "." then stack
  else if seg = ".." then
    match stack with
    | [] => if rooted then [] else [".."]
    | top :: rest => if top = ".." then ".." :: top :: rest else rest
  else seg :: stack

/-- Embeds Go `filepath.Clean(path)` (unix rules) in its documented
segment-processing semantics. -/
def filepathClean (path : String) : String :=
  if path = "" then "."
  else
    let rooted := stringsHasPrefix path "/"
    let stack := (stringsSplit path '/').foldl (cleanPush rooted) []
    let body := stringsJoin stack.reverse "/"
    if rooted then (if body = "" then "/" else "/" ++ body)
    else (if body = "" then "." else body)

/-- Embeds Go `filepath.Join(elems...)`: drop leading empty elements, join the
rest with `"/"` and `Clean` the result; all-empty input gives `""`. -/
def filepathJoin (elems : List String) : String :=
  match elems.dropWhile (fun e => e = "") with
  | [] => ""
  | l => filepathClean (stringsJoin l "/")

/-! ### Data model (`config.go` types) -/

/-- Embeds `type Repo struct { URL string; Name string }`.  As in Go, an absent
optional `name` key is represented by the empty string. -/
structure Repo where
  URL : String
  Name : String
deriving Repr, DecidableEq

/-- Embeds `type Account struct { Default bool; Root string; Repos map[string][]Repo }`.
`Repos` is the flattened path → repo-list map; the association list records the
map's contents in one particular iteration order. -/
structure Account where
  Default : Bool
  Root : String
  Repos : List (String × List Repo)
deriving Repr, DecidableEq

/-- Embeds `type Config struct { Accounts map[string]*Account }`. -/
structure Config where
  Accounts : List (String × Account)
deriving Repr, DecidableEq

/-- Embeds `type RepoWithPath struct { Repo Repo; Path string; FullPath string; Name string }`. -/
structure RepoWithPath where
  Repo : Repo
  Path : String
  FullPath : String
  Name : String
deriving Repr, DecidableEq

/-! ### Parsing (`parseReposRecursive`) -/

/-- One element of a decoded TOML array, as seen by `parseReposRecursive`:
either not a `map[string]any` at all (skipped by the source), or a map whose
`url` / `name` keys may each be present as a string or not. -/
inductive RawItem where
  | notTable : RawItem
  | table (url name : Option String) : RawItem
deriving Repr, DecidableEq

mutual
/-- A decoded TOML value below `repos`, as seen by `parseReposRecursive`'s
`switch`: an array (`[]any`), a nested table (`map[string]any`), or any other
value (ignored by the source). -/
inductive RawVal : Type where
  | arr (items : List RawItem) : RawVal
  | tbl (entries : RawEntries) : RawVal
  | other : RawVal
/-- The entries of a decoded TOML table, in one iteration order. -/
inductive RawEntries : Type where
  | nil : RawEntries
  | cons (key : String) (v : RawVal) (rest : RawEntries) : RawEntries
end

/-- Embeds the body of the inner `for _, item := range v` loop of
`parseReposRecursive`: a non-map item is skipped, a map item yields a `Repo`
whose absent fields stay `""`. -/
def parseItem : RawItem → Option Repo
  | .notTable => none
  | .table url name => some ⟨url.getD "", name.getD ""⟩

/-- Embeds the Go map assignment `repos[path] = repoList` on the association
list: overwrite the existing entry for `path` if any, else append. -/
def mapInsert (repos : List (String × List Repo)) (path : String)
    (v : List Repo) : List (String × List Repo) :=
  if repos.any (fun p => p.1 = path) then
    repos.map (fun p => if p.1 = path then (path, v) else p)
  else repos ++ [(path, v)]

mutual
/-- Embeds the body of the `for key, value := range data` loop of
`parseReposRecursive` for a single key/value pair. -/
def parseEntryVal (key : String) (v : RawVal) (pre : String)
    (repos : List (String × List Repo)) : List (String × List Repo) :=
  match v with
  | .arr items =>
    let currentPath := if pre = "" then key else pre ++ "." ++ key
    let path := if key = "/" then pre else currentPath
    mapInsert repos path (items.filterMap parseItem)
  | .tbl entries =>
    let currentPath := if pre = "" then key else pre ++ "." ++ key
    parseReposRecursive entries currentPath repos
  | .other => repos
/-- Embeds `func parseReposRecursive(data map[string]any, prefix string, repos map[string][]Repo)`,
with the map materialised in one iteration order and the accumulator returned
instead of mutated. -/
def parseReposRecursive (data : RawEntries) (pre : String)
    (repos : List (String × List Repo)) : List (String × List Repo) :=
  match data with
  | .nil => repos
  | .cons key v rest => parseReposRecursive rest pre (parseEntryVal key v pre repos)
end

/-! ### Name resolution and path expansion -/

/-- Embeds `func RepoName(url string) string`. -/
def RepoName (url : String) : String :=
  stringsTrimSuffix (filepathBase url) ".git"

/-- Embeds the pattern `name := RepoName(repo.URL); if repo.Name != "" { name = repo.Name }`
that `Validate`, `GetRepos` and `RepoPaths` all inline. -/
def repoDisplayName (repo : Repo) : String :=
  let name := RepoName repo.URL
  if repo.Name ≠ "" then repo.Name else name

/-- Embeds `func ExpandPath(path string) string`; the home directory that Go
reads from `os.UserHomeDir()` is passed explicitly. -/
def ExpandPath (home path : String) : String :=
  if stringsHasPrefix path "~/" then filepathJoin [home, String.mk (path.data.drop 2)]
  else path

/-! ### Validation (`Account.Validate`, `Config.Validate`) -/

/-- The data carried by the `fmt.Errorf("config conflict in account %q ...")`
error of `Account.Validate`, one field per format argument. -/
structure ConflictError where
  accountName : String
  path : String
  repoName : String
  conflictPath : String
  rootPath : String
  dirPath : String
deriving Repr, DecidableEq

/-- The `(parentPath, childSegment)` pairs that one key `path` contributes to
`Validate`'s `subpaths` map: for each `i` in `0 .. len(parts)-2`, the pair
`(strings.Join(parts[:i+1], "."), parts[i+1])`. -/
def pathParentChildPairs (path : String) : List (String × String) :=
  let parts := stringsSplit path '.'
  (List.range (parts.length - 1)).map (fun i =>
    (stringsJoin (parts.take (i + 1)) ".", parts.getD (i + 1) ""))

/-- The contents of the `subpaths` map built by the first loop of
`Account.Validate`, as a list of `(parent path, child segment)` pairs over all
keys of the account. -/
def subpaths (a : Account) : List (String × String) :=
  a.Repos.flatMap (fun p => pathParentChildPairs p.1)

/-- Embeds `func (a *Account) Validate(accountName string) error`: the first
repo whose display name collides with a child segment under its own path
yields the conflict error; `none` means success. -/
def Account.Validate (a : Account) (home accountName : String) : Option ConflictError :=
  a.Repos.findSome? (fun p =>
    p.2.findSome? (fun repo =>
      let repoName := repoDisplayName repo
      if (subpaths a).contains (p.1, repoName) then
        let conflictPath := p.1 ++ "." ++ repoName
        some ⟨accountName, p.1, repoName, conflictPath, ExpandPath home a.Root,
          stringsReplaceAllChar conflictPath '.' '/'⟩
      else none))

/-- Embeds `func (c *Config) Validate() error`: the first failing account
aborts the whole configuration. -/
def Config.Validate (c : Config) (home : String) : Option ConflictError :=
  c.Accounts.findSome? (fun p => p.2.Validate home p.1)

/-! ### Default-account resolution (`Config.DefaultAccount`) -/

/-- Embeds `func (c *Config) DefaultAccount() (*Account, string, error)`:
`none` stands for the `"no default account configured and multiple accounts exist"`
error. -/
def Config.DefaultAccount (c : Config) : Option (Account × String) :=
  match c.Accounts.find? (fun p => p.2.Default) with
  | some p => some (p.2, p.1)
  | none =>
    if c.Accounts.length = 1 then
      match c.Accounts with
      | p :: _ => some (p.2, p.1)
      | [] => none
    else none

/-! ### Path resolution (`Account.GetRepos`) -/

/-- Embeds the per-repo `continue` condition inside `GetRepos` (the
`if pathFilter != "" && strings.Contains(pathFilter, ".")` block): `true`
means the repo is skipped. -/
def repoSkip (pathFilter path name : String) : Bool :=
  if pathFilter ≠ "" ∧ stringsContainsChar pathFilter '.' then
    let fullRepoPath := path ++ "." ++ name
    if ¬ stringsHasPrefix fullRepoPath pathFilter ∧ fullRepoPath ≠ pathFilter then
      let parts := stringsSplit pathFilter '.'
      let filterPath := stringsJoin (parts.take (parts.length - 1)) "."
      let filterName := parts.getLastD ""
      if filterPath ≠ path ∨ filterName ≠ name then
        decide (parts.length > (stringsSplit path '.').length + 1)
      else false
    else false
  else false

/-- Embeds the per-path `continue` condition at the top of `GetRepos`'s outer
loop: a non-empty filter discards paths related to it by neither string-prefix
direction. -/
def pathSkip (pathFilter path : String) : Bool :=
  pathFilter ≠ "" ∧ ¬ stringsHasPrefix path pathFilter ∧ ¬ stringsHasPrefix pathFilter path

/-- Embeds the inner `for _, repo := range repos` loop of `GetRepos` for one
path key: the records appended for that key's repo list. -/
def pathContribution (rootPath pathFilter path : String) (repos : List Repo) :
    List RepoWithPath :=
  let dirPath := stringsReplaceAllChar path '.' '/'
  repos.filterMap (fun repo =>
    let name := repoDisplayName repo
    if repoSkip pathFilter path name then none
    else some ⟨repo, path, filepathJoin [rootPath, dirPath, name], name⟩)

/-- Embeds `func (a *Account) GetRepos(pathFilter string) []RepoWithPath`,
iterating `a.Repos` in the order of the association list. -/
def Account.GetRepos (a : Account) (home pathFilter : String) : List RepoWithPath :=
  let rootPath := ExpandPath home a.Root
  a.Repos.foldl (fun result p =>
    if pathSkip pathFilter p.1 then result
    else result ++ pathContribution rootPath pathFilter p.1 p.2) []

/-! ### Completion paths (`Account.RepoPaths`) -/

/-- Embeds the `if !seen[x] { paths = append(paths, x); seen[x] = true }`
pattern of `RepoPaths`; the state is `(paths, seen)`. -/
def addPath (st : List String × List String) (x : String) :
    List String × List String :=
  if st.2.contains x then st else (st.1 ++ [x], x :: st.2)

/-- Embeds one iteration of the outer loop of `RepoPaths`: record the path key
itself, then every `path + "." + name` of its repo list. -/
def repoPathsStep (st : List String × List String) (p : String × List Repo) :
    List String × List String :=
  p.2.foldl (fun st2 repo => addPath st2 (p.1 ++ "." ++ repoDisplayName repo))
    (addPath st p.1)

/-- Embeds `func (a *Account) RepoPaths() []string`, iterating `a.Repos` in the
order of the association list.  (The source does not sort; its caller in
`complete.go` applies `sort.Strings` afterwards.) -/
def Account.RepoPaths (a : Account) : List String :=
  (a.Repos.foldl repoPathsStep ([], [])).1

/-- Go's `<` on strings (byte-wise lexicographic order, which for UTF-8 agrees
with the character-wise order used here), as a `Bool`-valued `≤` test; used to
state sortedness of display output. -/
def charListLe : List Char → List Char → Bool
  | [], _ => true
  | _ :: _, [] => false
  | a :: as, b :: bs => if a = b then charListLe as bs else decide (a < b)

/-- Embeds Go's `s <= t` on strings. -/
def goStrLe (s t : String) : Bool :=
  charListLe s.data t.data

/-! ### Spec-side notions (stated from the specification's words, to be
compared against the code-derived definitions above) -/

/-- Tests whether one of the dot-separated segments of `s` is the literal `"/"`. -/
def hasSlashSeg (s : String) : Bool :=
  (stringsSplit s '.').contains "/"

mutual
/-- Well-formedness of one decoded key/value pair per the config grammar of the
spec (§6): a `"/"` key carries a repo array, and no other key has `"/"` among
its dot-segments. -/
def goodVal : String → RawVal → Bool
  | key, .arr _ => key = "/" || ! hasSlashSeg key
  | key, .tbl entries => (! hasSlashSeg key) && goodEntries entries
  | _, .other => true
/-- Conjunction of `goodVal` over all entries of a decoded table. -/
def goodEntries : RawEntries → Bool
  | .nil => true
  | .cons key v rest => goodVal key v && goodEntries rest
end

/-- Follows the spec's words (§3): the last path segment of a URL, i.e.
everything after the final `'/'` (the whole URL when it has no `'/'`). -/
def specLastSegment (url : String) : String :=
  String.mk (url.data.reverse.takeWhile (fun c => c ≠ '/')).reverse

/-- Follows the spec's words (§3): a derived repo name is the last path segment
of the URL with a trailing `".git"` suffix stripped. -/
def specDerivedName (url : String) : String :=
  stringsTrimSuffix (specLastSegment url) ".git"

/-- Follows the spec's words (§4.2): `c` is a child segment of `P` implied by
the key `K`, i.e. `K` has `P` as a strict dot-prefix and `c` is the next
segment of `K` after `P`. -/
def specChildSeg (P c K : String) : Prop :=
  ∃ rest, stringsSplit K '.' = stringsSplit P '.' ++ c :: rest

/-- Follows the spec's words (§4.2): some path `P` of the account holds a repo
whose resolved name equals a child segment implied by another key of the
account having `P` as a strict dot-prefix. -/
def specConflict (a : Account) : Prop :=
  ∃ p ∈ a.Repos, ∃ r ∈ p.2, ∃ K ∈ a.Repos.map Prod.fst, specChildSeg p.1 (repoDisplayName r) K

/-! ### Concrete fixtures used by the claim theorems -/

/-- The decoded form of `repos.a.b = [{url="u1"}]`, `repos.a."/" = [{url="u2"}]`. -/
def dRound : RawEntries :=
  .cons "a" (.tbl (.cons "b" (.arr [.table (some "u1") none])
    (.cons "/" (.arr [.table (some "u2") none]) .nil))) .nil

/-- The decoded form of `repos.a."/".b = [{url="u1"}]`: a `"/"` key whose value
is a nested table rather than a repo array. -/
def dBad : RawEntries :=
  .cons "a" (.tbl (.cons "/" (.tbl (.cons "b" (.arr [.table (some "u1") none]) .nil)) .nil)) .nil

/-- Repo descriptor `{url = "git@github.com:company/api.git"}`. -/
def repoApi : Repo := ⟨"git@github.com:company/api.git", ""⟩

/-- Repo descriptor `{url = "git@github.com:company/worker.git"}`. -/
def repoWorker : Repo := ⟨"git@github.com:company/worker.git", ""⟩

/-- Repo descriptor `{url = "git@github.com:me/dotfiles.git"}`. -/
def repoDotfiles : Repo := ⟨"git@github.com:me/dotfiles.git", ""⟩

/-- The account of the spec's filter-semantics example: paths `work.backend`
(repos `api`, `worker`) and `personal` (repo `dotfiles`). -/
def acct3 : Account :=
  ⟨false, "~/Projects", [("work.backend", [repoApi, repoWorker]), ("personal", [repoDotfiles])]⟩

/-- The decoded form of `repos.personal."/" = [{url=".../dotfiles.git"}]`,
`repos.personal.dotfiles = [{url=".../other.git"}]`. -/
def dConf : RawEntries :=
  .cons "personal" (.tbl (.cons "/" (.arr [.table (some "git@github.com:me/dotfiles.git") none])
    (.cons "dotfiles" (.arr [.table (some "git@github.com:me/other.git") none]) .nil))) .nil

/-- The account of the spec's conflict example, with its repo tree produced by
the parser from `dConf`. -/
def acctConf : Account :=
  ⟨false, "~/Projects", parseReposRecursive dConf "" []⟩

/-- A one-account configuration holding `acctConf` under the name `personal-acct`. -/
def cfgConf : Config := ⟨[("personal-acct", acctConf)]⟩

/-- An account whose repo map is materialised in the iteration order
`b` before `a`. -/
def acct8a : Account := ⟨false, "/r", [("b", [⟨"x.git", ""⟩]), ("a", [⟨"y.git", ""⟩])]⟩

/-- The same repo map as `acct8a`, materialised in the iteration order
`a` before `b`. -/
def acct8b : Account := ⟨false, "/r", [("a", [⟨"y.git", ""⟩]), ("b", [⟨"x.git", ""⟩])]⟩

/-- An account with a path key `workshop`, for the raw-prefix filter example. -/
def acct10 : Account := ⟨false, "/r", [("workshop", [⟨"git@github.com:o/tool.git", ""⟩])]⟩

/-- An account marked as default. -/
def acctDef : Account := ⟨true, "/r1", []⟩

/-- An account not marked as default. -/
def acctPlainA : Account := ⟨false, "/r2", []⟩

/-- Another account not marked as default. -/
def acctPlainB : Account := ⟨false, "/r3", []⟩

/-- Three accounts, exactly one flagged default. -/
def cfg5a : Config := ⟨[("one", acctPlainA), ("two", acctDef), ("three", acctPlainB)]⟩

/-- A single unflagged account. -/
def cfg5b : Config := ⟨[("solo", acctPlainA)]⟩

/-- Three accounts, none flagged default. -/
def cfg5c : Config := ⟨[("one", acctPlainA), ("two", acctPlainB), ("three", acctPlainA)]⟩

/-! ### Lemmas about splitting and joining -/

theorem splitCh_ne_nil (sep : Char) : ∀ l : List Char, splitCh sep l ≠ []
  | [] => by simp [splitCh]
  | c :: rest => by
    rcases hr : splitCh sep rest with _ | ⟨h1, t⟩
    · exact absurd hr (splitCh_ne_nil sep rest)
    · simp only [splitCh]
      rw [hr]
      dsimp only
      split <;> simp

theorem splitCh_cons_sep (sep : Char) (rest : List Char) :
    splitCh sep (sep :: rest) = [] :: splitCh sep rest := by
  rcases hr : splitCh sep rest with _ | ⟨h1, t⟩
  · exact absurd hr (splitCh_ne_nil sep rest)
  · simp only [splitCh]
    rw [hr]
    dsimp only
    simp

theorem splitCh_cons_ne {sep c : Char} (hc : c ≠ sep) {rest h1 t}
    (hr : splitCh sep rest = h1 :: t) :
    splitCh sep (c :: rest) = (c :: h1) :: t := by
  simp only [splitCh]
  rw [hr]
  dsimp only
  simp [hc]

theorem splitCh_append (sep : Char) (l1 l2 : List Char) :
    splitCh sep (l1 ++ sep :: l2) = splitCh sep l1 ++ splitCh sep l2 := by
  induction l1 with
  | nil =>
    rw [List.nil_append, splitCh_cons_sep]
    rfl
  | cons c t ih =>
    by_cases hc : c = sep
    · subst hc
      rw [List.cons_append, splitCh_cons_sep, splitCh_cons_sep, ih, List.cons_append]
    · rcases hr : splitCh sep t with _ | ⟨h1, tl⟩
      · exact absurd hr (splitCh_ne_nil sep t)
      · have hr2 : splitCh sep (t ++ sep :: l2) = h1 :: (tl ++ splitCh sep l2) := by
          rw [ih, hr, List.cons_append]
        rw [List.cons_append, splitCh_cons_ne hc hr2, splitCh_cons_ne hc hr, List.cons_append]

theorem sep_not_mem_of_mem_splitCh (sep : Char) :
    ∀ (l s : List Char), s ∈ splitCh sep l → sep ∉ s
  | [], s, hs => by
    simp [splitCh] at hs
    simp [hs]
  | c :: rest, s, hs => by
    by_cases hc : c = sep
    · rw [hc, splitCh_cons_sep] at hs
      rcases List.mem_cons.mp hs with rfl | hs2
      · simp
      · exact sep_not_mem_of_mem_splitCh sep rest s hs2
    · rcases hr : splitCh sep rest with _ | ⟨h1, t⟩
      · exact absurd hr (splitCh_ne_nil sep rest)
      · rw [splitCh_cons_ne hc hr] at hs
        rcases List.mem_cons.mp hs with rfl | hs2
        · intro hmem
          rcases List.mem_cons.mp hmem with hmem2 | hmem2
          · exact hc hmem2.symm
          · exact sep_not_mem_of_mem_splitCh sep rest h1
              (hr ▸ List.mem_cons_self h1 t) hmem2
        · exact sep_not_mem_of_mem_splitCh sep rest s
            (hr ▸ List.mem_cons_of_mem h1 hs2)

theorem splitCh_of_not_mem {sep : Char} : ∀ {l : List Char}, sep ∉ l → splitCh sep l = [l]
  | [], _ => by simp [splitCh]
  | c :: rest, h => by
    have hc : c ≠ sep := fun hh => h (hh ▸ List.mem_cons_self c rest)
    have hrest : sep ∉ rest := fun hh => h (List.mem_cons_of_mem c hh)
    rw [splitCh_cons_ne hc (splitCh_of_not_mem hrest)]

theorem joinCh_splitCh : ∀ l : List Char, joinCh (splitCh '.' l) = l
  | [] => by simp [splitCh, joinCh]
  | c :: rest => by
    by_cases hc : c = '.'
    · subst hc
      rw [splitCh_cons_sep]
      rcases hr : splitCh '.' rest with _ | ⟨h1, t⟩
      · exact absurd hr (splitCh_ne_nil '.' rest)
      · have := joinCh_splitCh rest
        rw [hr] at this
        simp only [joinCh]
        rw [this]
        simp
    · rcases hr : splitCh '.' rest with _ | ⟨h1, t⟩
      · exact absurd hr (splitCh_ne_nil '.' rest)
      · rw [splitCh_cons_ne hc hr]
        have := joinCh_splitCh rest
        rw [hr] at this
        cases t with
        | nil => simp only [joinCh] at this ⊢; rw [this]
        | cons t0 ts => simp only [joinCh] at this ⊢; rw [List.cons_append, this]

theorem splitCh_joinCh :
    ∀ {ls : List (List Char)}, ls ≠ [] → (∀ s ∈ ls, '.' ∉ s) →
      splitCh '.' (joinCh ls) = ls
  | [], h, _ => absurd rfl h
  | [s], _, hdf => by
    simp only [joinCh]
    exact splitCh_of_not_mem (hdf s (List.mem_singleton_self s))
  | s :: r :: t, _, hdf => by
    have hs : '.' ∉ s := hdf s (List.mem_cons_self _ _)
    have hrec : splitCh '.' (joinCh (r :: t)) = r :: t :=
      splitCh_joinCh (by simp) (fun x hx => hdf x (List.mem_cons_of_mem s hx))
    show splitCh '.' (s ++ '.' :: joinCh (r :: t)) = s :: r :: t
    rw [splitCh_append, hrec, splitCh_of_not_mem hs, List.cons_append, List.nil_append]

/-! ### String-level lifts of the split/join lemmas -/

theorem string_data_append (a b : String) : (a ++ b).data = a.data ++ b.data := rfl

theorem stringsSplit_ne_nil (s : String) (sep : Char) : stringsSplit s sep ≠ [] := by
  unfold stringsSplit
  simp [splitCh_ne_nil]

theorem stringsSplit_append (s t : String) :
    stringsSplit (s ++ "." ++ t) '.' = stringsSplit s '.' ++ stringsSplit t '.' := by
  unfold stringsSplit
  have hdata : (s ++ "." ++ t).data = s.data ++ '.' :: t.data := by
    rw [string_data_append, string_data_append]
    show s.data ++ ['.'] ++ t.data = s.data ++ '.' :: t.data
    rw [List.append_assoc]
    rfl
  rw [hdata, splitCh_append, List.map_append]

theorem stringsJoin_map_mk (ls : List (List Char)) :
    stringsJoin (ls.map String.mk) "." = String.mk (joinCh ls) := by
  match ls with
  | [] => rfl
  | [s] => rfl
  | s :: r :: t =>
    show String.mk s ++ "." ++ stringsJoin ((r :: t).map String.mk) "." = _
    rw [stringsJoin_map_mk (r :: t)]
    show String.mk ((s ++ ['.']) ++ joinCh (r :: t)) = String.mk (s ++ '.' :: joinCh (r :: t))
    rw [List.append_assoc, List.singleton_append]

theorem stringsJoin_stringsSplit (s : String) :
    stringsJoin (stringsSplit s '.') "." = s := by
  unfold stringsSplit
  rw [stringsJoin_map_mk, joinCh_splitCh]

theorem stringsSplit_stringsJoin (ls : List String) (hne : ls ≠ [])
    (hdf : ∀ x ∈ ls, '.' ∉ x.data) :
    stringsSplit (stringsJoin ls ".") '.' = ls := by
  have hmap : ls = (ls.map String.data).map String.mk := by
    rw [List.map_map]
    exact (List.map_id ls).symm
  rw [hmap, stringsJoin_map_mk]
  unfold stringsSplit
  rw [show (String.mk (joinCh (ls.map String.data))).data = joinCh (ls.map String.data) from rfl]
  rw [splitCh_joinCh (by simpa using hne) (by
    intro x hx
    rcases List.mem_map.mp hx with ⟨y, hy, rfl⟩
    exact hdf y hy)]

theorem mem_stringsSplit_dot_free (s : String) :
    ∀ x ∈ stringsSplit s '.', '.' ∉ x.data := by
  intro x hx
  unfold stringsSplit at hx
  rcases List.mem_map.mp hx with ⟨y, hy, rfl⟩
  exact sep_not_mem_of_mem_splitCh '.' s.data y hy

/-! ### C1: keys produced by the parser -/

theorem hasSlashSeg_eq_false_iff (s : String) :
    hasSlashSeg s = false ↔ "/" ∉ stringsSplit s '.' := by
  unfold hasSlashSeg
  rw [show (stringsSplit s '.').contains "/" = (stringsSplit s '.').elem "/" from rfl,
    List.elem_eq_mem]
  simp

theorem hasSlashSeg_append (s t : String) (hs : hasSlashSeg s = false)
    (ht : hasSlashSeg t = false) : hasSlashSeg (s ++ "." ++ t) = false := by
  rw [hasSlashSeg_eq_false_iff] at hs ht ⊢
  rw [stringsSplit_append]
  simp only [List.mem_append]
  exact fun h => h.elim hs ht

theorem mem_mapInsert (repos : List (String × List Repo)) (path : String)
    (v : List Repo) (p : String × List Repo) (hp : p ∈ mapInsert repos path v) :
    p.1 = path ∨ p ∈ repos := by
  unfold mapInsert at hp
  split at hp
  · rcases List.mem_map.mp hp with ⟨q, hq, hqe⟩
    by_cases hqp : q.1 = path
    · rw [if_pos hqp] at hqe
      left
      rw [← hqe]
    · rw [if_neg hqp] at hqe
      right
      rw [← hqe]
      exact hq
  · rcases List.mem_append.mp hp with h | h
    · exact Or.inr h
    · left
      rcases List.mem_singleton.mp h with rfl
      rfl

mutual
theorem parseEntryVal_no_slash (key : String) (v : RawVal) (pre : String)
    (repos : List (String × List Repo)) (hv : goodVal key v = true)
    (hpre : hasSlashSeg pre = false)
    (hrepos : ∀ p ∈ repos, hasSlashSeg p.1 = false) :
    ∀ p ∈ parseEntryVal key v pre repos, hasSlashSeg p.1 = false := by
  match v with
  | .arr items =>
    intro p hp
    have hpath : hasSlashSeg (if key = "/" then pre
        else if pre = "" then key else pre ++ "." ++ key) = false := by
      by_cases hk : key = "/"
      · rw [if_pos hk]
        exact hpre
      · have hkey : hasSlashSeg key = false := by
          unfold goodVal at hv
          rcases Bool.or_eq_true_iff.mp hv with h | h
          · exact absurd (by exact of_decide_eq_true h) hk
          · simpa using h
        rw [if_neg hk]
        by_cases hp0 : pre = ""
        · rw [if_pos hp0]
          exact hkey
        · rw [if_neg hp0]
          exact hasSlashSeg_append pre key hpre hkey
    have hp2 : p ∈ mapInsert repos (if key = "/" then pre
        else if pre = "" then key else pre ++ "." ++ key)
        (items.filterMap parseItem) := by
      have : parseEntryVal key (.arr items) pre repos =
          mapInsert repos (if key = "/" then pre
            else if pre = "" then key else pre ++ "." ++ key)
            (items.filterMap parseItem) := by
        unfold parseEntryVal
        by_cases hk : key = "/" <;> by_cases hp0 : pre = "" <;> simp [hk, hp0]
      rw [← this]
      exact hp
    rcases mem_mapInsert _ _ _ p hp2 with h | h
    · rw [h]
      exact hpath
    · exact hrepos p h
  | .tbl entries =>
    intro p hp
    have hv2 : goodEntries entries = true := by
      unfold goodVal at hv
      exact (Bool.and_eq_true_iff.mp hv).2
    have hkey : hasSlashSeg key = false := by
      unfold goodVal at hv
      simpa using (Bool.and_eq_true_iff.mp hv).1
    have hcur : hasSlashSeg (if pre = "" then key else pre ++ "." ++ key) = false := by
      by_cases hp0 : pre = ""
      · rw [if_pos hp0]
        exact hkey
      · rw [if_neg hp0]
        exact hasSlashSeg_append pre key hpre hkey
    have hp2 : p ∈ parseReposRecursive entries
        (if pre = "" then key else pre ++ "." ++ key) repos := by
      have : parseEntryVal key (.tbl entries) pre repos =
          parseReposRecursive entries (if pre = "" then key else pre ++ "." ++ key) repos := by
        unfold parseEntryVal
        by_cases hp0 : pre = "" <;> simp [hp0]
      rw [← this]
      exact hp
    exact parseReposRecursive_no_slash entries _ repos hv2 hcur hrepos p hp2
  | .other =>
    intro p hp
    exact hrepos p hp

theorem parseReposRecursive_no_slash (data : RawEntries) (pre : String)
    (repos : List (String × List Repo)) (hd : goodEntries data = true)
    (hpre : hasSlashSeg pre = false)
    (hrepos : ∀ p ∈ repos, hasSlashSeg p.1 = false) :
    ∀ p ∈ parseReposRecursive data pre repos, hasSlashSeg p.1 = false := by
  match data with
  | .nil =>
    intro p hp
    exact hrepos p hp
  | .cons key v rest =>
    have hv : goodVal key v = true := by
      unfold goodEntries at hd
      exact (Bool.and_eq_true_iff.mp hd).1
    have hrest : goodEntries rest = true := by
      unfold goodEntries at hd
      exact (Bool.and_eq_true_iff.mp hd).2
    intro p hp
    exact parseReposRecursive_no_slash rest pre (parseEntryVal key v pre repos) hrest hpre
      (parseEntryVal_no_slash key v pre repos hv hpre hrepos) p hp
end

/-- C1 (amended): for every decoded config in which each `"/"` key carries a
repo array and no other key has `"/"` among its dot-segments (the shape of the
spec's config grammar), every key of the flattened repo tree produced by the
parser is free of `"/"` segments; and parsing `repos.a.b = [{url="u1"}]`
together with `repos.a."/" = [{url="u2"}]` yields exactly the tree mapping
`"a"` to the `u2` descriptor and `"a.b"` to the `u1` descriptor, with no key
containing a `/`. -/
theorem c1_parser_slash_keys :
    (∀ data : RawEntries, goodEntries data = true →
      ∀ p ∈ parseReposRecursive data "" [], hasSlashSeg p.1 = false) ∧
    parseReposRecursive dRound "" [] = [("a.b", [⟨"u1", ""⟩]), ("a", [⟨"u2", ""⟩])] ∧
    (parseReposRecursive dRound "" []).lookup "a" = some [⟨"u2", ""⟩] ∧
    (parseReposRecursive dRound "" []).lookup "a.b" = some [⟨"u1", ""⟩] := by
  refine ⟨?_, rfl, rfl, rfl⟩
  intro data hgood
  exact parseReposRecursive_no_slash data "" [] hgood rfl (by simp)

/-- Witness for C1: the general part applied to the concrete decoded config
`dRound` and its key `"a.b"`. -/
theorem c1_witness : hasSlashSeg "a.b" = false :=
  c1_parser_slash_keys.1 dRound rfl ("a.b", [⟨"u1", ""⟩]) (by decide)

/-- Counterexample to C1 as stated: the decoded config
`repos.a."/".b = [{url="u1"}]` (a `"/"` key whose value is a nested table) is
flattened to the single key `"a./.b"`, which does contain a `"/"` segment. -/
theorem c1_counterexample :
    (parseReposRecursive dBad "" []).map Prod.fst = ["a./.b"] ∧
    hasSlashSeg "a./.b" = true := ⟨rfl, rfl⟩

/-! ### C2: conflict validation -/

theorem stringsSplit_join_take (K : String) (i : Nat)
    (hi : i + 1 ≤ (stringsSplit K '.').length) :
    stringsSplit (stringsJoin ((stringsSplit K '.').take (i + 1)) ".") '.' =
      (stringsSplit K '.').take (i + 1) := by
  apply stringsSplit_stringsJoin
  · intro h
    have hlen := congrArg List.length h
    have hKlen : (stringsSplit K '.').length ≥ 1 := by
      rcases hK : stringsSplit K '.' with _ | ⟨x, xs⟩
      · exact absurd hK (stringsSplit_ne_nil K '.')
      · simp
    simp only [List.length_take, List.length_nil] at hlen
    omega
  · intro x hx
    exact mem_stringsSplit_dot_free K x (List.take_subset _ _ hx)

theorem pairs_mem_iff (P c K : String) :
    (P, c) ∈ pathParentChildPairs K ↔ specChildSeg P c K := by
  unfold pathParentChildPairs specChildSeg
  constructor
  · intro h
    rcases List.mem_map.mp h with ⟨i, hi, he⟩
    have hirange : i < (stringsSplit K '.').length - 1 := List.mem_range.mp hi
    have hKlen : (stringsSplit K '.').length ≥ 1 := by
      rcases hK : stringsSplit K '.' with _ | ⟨x, xs⟩
      · exact absurd hK (stringsSplit_ne_nil K '.')
      · simp
    have hlen : i + 1 < (stringsSplit K '.').length := by omega
    have hP : stringsJoin ((stringsSplit K '.').take (i + 1)) "." = P :=
      congrArg Prod.fst he
    have hc : (stringsSplit K '.').getD (i + 1) "" = c := congrArg Prod.snd he
    have hsplitP : stringsSplit P '.' = (stringsSplit K '.').take (i + 1) := by
      rw [← hP]
      exact stringsSplit_join_take K i (le_of_lt hlen)
    refine ⟨(stringsSplit K '.').drop (i + 2), ?_⟩
    rw [hsplitP]
    have hgetD : (stringsSplit K '.').getD (i + 1) "" = (stringsSplit K '.')[i + 1] := by
      simp [List.getD_eq_getElem?_getD, List.getElem?_eq_getElem hlen]
    rw [← hc, hgetD,
      show (stringsSplit K '.')[i + 1] :: (stringsSplit K '.').drop (i + 2) =
        (stringsSplit K '.').drop (i + 1) from (List.drop_eq_getElem_cons hlen).symm,
      List.take_append_drop]
  · rintro ⟨rest, hres⟩
    have hsPlen : 1 ≤ (stringsSplit P '.').length := by
      rcases hP : stringsSplit P '.' with _ | ⟨x, xs⟩
      · exact absurd hP (stringsSplit_ne_nil P '.')
      · simp
    refine List.mem_map.mpr ⟨(stringsSplit P '.').length - 1, ?_, ?_⟩
    · apply List.mem_range.mpr
      rw [hres]
      simp only [List.length_append, List.length_cons]
      omega
    · have h1 : (stringsSplit P '.').length - 1 + 1 = (stringsSplit P '.').length := by omega
      rw [h1]
      have htake : (stringsSplit K '.').take (stringsSplit P '.').length =
          stringsSplit P '.' := by
        rw [hres]
        exact List.take_left' rfl
      have hgetD : (stringsSplit K '.').getD (stringsSplit P '.').length "" = c := by
        rw [hres]
        simp [List.getD_eq_getElem?_getD,
          List.getElem?_append_right (Nat.le_refl (stringsSplit P '.').length)]
      rw [htake, hgetD, stringsJoin_stringsSplit P]

theorem subpaths_mem_iff (a : Account) (P c : String) :
    (P, c) ∈ subpaths a ↔ ∃ K ∈ a.Repos.map Prod.fst, specChildSeg P c K := by
  unfold subpaths
  rw [List.mem_flatMap]
  constructor
  · rintro ⟨p, hp, hmem⟩
    exact ⟨p.1, List.mem_map_of_mem _ hp, (pairs_mem_iff _ _ _).mp hmem⟩
  · rintro ⟨K, hK, hspec⟩
    rcases List.mem_map.mp hK with ⟨p, hp, rfl⟩
    exact ⟨p, hp, (pairs_mem_iff _ _ _).mpr hspec⟩

theorem validate_isSome_iff (a : Account) (home n : String) :
    (a.Validate home n).isSome ↔ specConflict a := by
  unfold Account.Validate specConflict
  simp only [List.findSome?_isSome_iff]
  constructor
  · rintro ⟨p, hp, r, hr, hsome⟩
    simp at hsome
    rcases (subpaths_mem_iff a p.1 (repoDisplayName r)).mp hsome with ⟨K, hK, hspec⟩
    exact ⟨p, hp, r, hr, K, hK, hspec⟩
  · rintro ⟨p, hp, r, hr, K, hK, hspec⟩
    have hmem := (subpaths_mem_iff a p.1 (repoDisplayName r)).mpr ⟨K, hK, hspec⟩
    exact ⟨p, hp, r, hr, by simp [hmem]⟩

/-- C2: for every configuration, loading-time validation fails with a
`ConfigConflict` error iff some account holds a path `P` with a repo whose
resolved name equals a child segment implied by another key of that account
having `P` as a strict dot-prefix (a conflict in any single account aborts the
whole configuration); and on the spec's example (`repos.personal."/"` holding
`dotfiles.git` next to the key `repos.personal.dotfiles`) the error names the
account, the path `personal`, the repo `dotfiles`, and the computed filesystem
path. -/
theorem c2_conflict_validation :
    (∀ (c : Config) (home : String),
      (c.Validate home).isSome ↔ ∃ p ∈ c.Accounts, specConflict p.2) ∧
    cfgConf.Validate "/home/u" =
      some ⟨"personal-acct", "personal", "dotfiles", "personal.dotfiles",
        "/home/u/Projects", "personal/dotfiles"⟩ := by
  refine ⟨?_, rfl⟩
  intro c home
  unfold Config.Validate
  simp only [List.findSome?_isSome_iff]
  constructor
  · rintro ⟨p, hp, hsome⟩
    exact ⟨p, hp, (validate_isSome_iff p.2 home p.1).mp hsome⟩
  · rintro ⟨p, hp, hconf⟩
    exact ⟨p, hp, (validate_isSome_iff p.2 home p.1).mpr hconf⟩

/-! ### The resolver as a `flatMap` over the path entries -/

theorem getRepos_eq_flatMap (a : Account) (home f : String) :
    a.GetRepos home f = a.Repos.flatMap (fun p =>
      if pathSkip f p.1 then []
      else pathContribution (ExpandPath home a.Root) f p.1 p.2) := by
  unfold Account.GetRepos
  suffices h : ∀ (l : List (String × List Repo)) (init : List RepoWithPath),
      l.foldl (fun result p => if pathSkip f p.1 then result
        else result ++ pathContribution (ExpandPath home a.Root) f p.1 p.2) init =
      init ++ l.flatMap (fun p => if pathSkip f p.1 then []
        else pathContribution (ExpandPath home a.Root) f p.1 p.2) by
    rw [h]
    rfl
  intro l
  induction l with
  | nil => intro init; simp
  | cons p rest ih =>
    intro init
    simp only [List.foldl_cons, List.flatMap_cons]
    by_cases hs : pathSkip f p.1 = true
    · rw [if_pos hs, if_pos hs, ih]
      simp
    · rw [if_neg hs, if_neg hs, ih]
      simp [List.append_assoc]

/-- C7: a non-empty filter that is related to no path key in either
string-prefix direction resolves to the empty list (and `GetRepos` has no
error outcome at all — its only result is the list). -/
theorem c7_no_match_empty (a : Account) (home f : String)
    (h : ∀ p ∈ a.Repos, stringsHasPrefix p.1 f = false ∧ stringsHasPrefix f p.1 = false) :
    a.GetRepos home f = [] := by
  rw [getRepos_eq_flatMap, List.flatMap_eq_nil_iff]
  intro p hp
  rcases h p hp with ⟨h1, h2⟩
  have hf : f ≠ "" := by
    intro hfe
    subst hfe
    simp [stringsHasPrefix] at h1
  rw [if_pos (by simp [pathSkip, hf, h1, h2])]

/-- Witness for C7: the example account resolved with the filter
`nonexistent` yields the empty list. -/
theorem c7_witness : acct3.GetRepos "/home/u" "nonexistent" = [] :=
  c7_no_match_empty acct3 "/home/u" "nonexistent" (by decide)

/-- C10: the path-level match of the resolver is a raw string-prefix test
that ignores dot-segment boundaries: for a filter without a `'.'`, every repo
under any key related to the filter by either string-prefix direction is
resolved (in particular the filter `work` selects repos under the key
`workshop`). -/
theorem c10_raw_prefix_candidate (a : Account) (home f P : String)
    (rs : List Repo) (r : Repo) (hmem : (P, rs) ∈ a.Repos) (hr : r ∈ rs)
    (hf : f ≠ "") (hdot : stringsContainsChar f '.' = false)
    (hpre : stringsHasPrefix P f = true ∨ stringsHasPrefix f P = true) :
    ∃ rwp ∈ a.GetRepos home f, rwp.Path = P ∧ rwp.Repo = r ∧
      rwp.Name = repoDisplayName r := by
  rw [getRepos_eq_flatMap]
  refine ⟨⟨r, P, filepathJoin [ExpandPath home a.Root,
    stringsReplaceAllChar P '.' '/', repoDisplayName r], repoDisplayName r⟩,
    ?_, rfl, rfl, rfl⟩
  apply List.mem_flatMap.mpr
  refine ⟨(P, rs), hmem, ?_⟩
  have hskip : ¬ pathSkip f P = true := by
    simp only [pathSkip]
    rcases hpre with h | h <;> simp [h]
  rw [if_neg hskip]
  unfold pathContribution
  apply List.mem_filterMap.mpr
  refine ⟨r, hr, ?_⟩
  rw [if_neg (by simp [repoSkip, hdot])]

/-- Witness for C10: with a key `workshop`, the filter `work` (a raw string
prefix of `workshop` but not a dot-segment prefix) resolves the repo stored
under `workshop`. -/
theorem c10_witness :
    ∃ rwp ∈ acct10.GetRepos "/h" "work", rwp.Path = "workshop" ∧
      rwp.Repo = (⟨"git@github.com:o/tool.git", ""⟩ : Repo) ∧
      rwp.Name = repoDisplayName ⟨"git@github.com:o/tool.git", ""⟩ :=
  c10_raw_prefix_candidate acct10 "/h" "work" "workshop"
    [⟨"git@github.com:o/tool.git", ""⟩] ⟨"git@github.com:o/tool.git", ""⟩
    (by decide) (by decide) (by decide) (by decide) (Or.inl (by decide))

/-! ### C6: name derivation -/

/-- C6: a repo's resolved name is the explicit `name` when one is given, and
otherwise the last path segment of the URL with a trailing `".git"` suffix
stripped (stated for URLs that have a last path segment, i.e. are non-empty
and do not end in `'/'`); in particular `git@github.com:org/my-repo.git`
derives `my-repo`, and an explicit name `custom` wins regardless of URL. -/
theorem c6_name_derivation :
    (∀ r : Repo, r.Name ≠ "" → repoDisplayName r = r.Name) ∧
    (∀ r : Repo, r.Name = "" → r.URL ≠ "" → r.URL.data.getLast? ≠ some '/' →
      repoDisplayName r = specDerivedName r.URL) ∧
    repoDisplayName ⟨"git@github.com:org/my-repo.git", ""⟩ = "my-repo" ∧
    (∀ url : String, repoDisplayName ⟨url, "custom"⟩ = "custom") := by
  refine ⟨?_, ?_, rfl, ?_⟩
  · intro r h
    simp [repoDisplayName, h]
  · intro r hname hurl hlast
    unfold repoDisplayName
    rw [if_neg (by simp [hname])]
    unfold RepoName specDerivedName
    congr 1
    unfold filepathBase specLastSegment
    rw [if_neg hurl]
    rcases hrev : r.URL.data.reverse with _ | ⟨c, t⟩
    · exfalso
      apply hurl
      have : r.URL.data = [] := by
        have := congrArg List.reverse hrev
        simpa using this
      have : r.URL = String.mk [] := by
        rw [← this]
      exact this
    · have hc : ¬ c = '/' := by
        intro hceq
        apply hlast
        rw [← List.head?_reverse, hrev, hceq]
        rfl
      simp [List.dropWhile_cons, List.takeWhile_cons, hc]
  · intro url
    simp [repoDisplayName]

/-- Witness for C6: the two hypothetical clauses applied to concrete
descriptors. -/
theorem c6_witness :
    repoDisplayName ⟨"u.git", "nm"⟩ = "nm" ∧
    repoDisplayName ⟨"git@github.com:org/my-repo.git", ""⟩ =
      specDerivedName "git@github.com:org/my-repo.git" :=
  ⟨c6_name_derivation.1 ⟨"u.git", "nm"⟩ (by decide),
   c6_name_derivation.2.1 ⟨"git@github.com:org/my-repo.git", ""⟩ rfl
     (by decide) (by decide)⟩

/-! ### C5: default-account resolution -/

/-- C5: `DefaultAccount` returns the account flagged default when exactly one
entry is so flagged; with no flagged account it returns the sole account when
exactly one exists, and fails (the `NoDefaultAmbiguous` error, embedded as
`none`) when two or more exist. -/
theorem c5_default_resolution :
    (∀ (c : Config) (pr : String × Account),
      c.Accounts.filter (fun p => p.2.Default) = [pr] →
      c.DefaultAccount = some (pr.2, pr.1)) ∧
    (∀ (c : Config) (pr : String × Account),
      (∀ p ∈ c.Accounts, p.2.Default = false) → c.Accounts = [pr] →
      c.DefaultAccount = some (pr.2, pr.1)) ∧
    (∀ c : Config, (∀ p ∈ c.Accounts, p.2.Default = false) →
      2 ≤ c.Accounts.length → c.DefaultAccount = none) := by
  refine ⟨?_, ?_, ?_⟩
  · intro c pr hfilter
    unfold Config.DefaultAccount
    have hprmem : pr ∈ c.Accounts.filter (fun p => p.2.Default) := by
      rw [hfilter]
      exact List.mem_singleton_self pr
    have hprmem2 := List.mem_filter.mp hprmem
    rcases hq : c.Accounts.find? (fun p => p.2.Default) with _ | q
    · exfalso
      have := List.find?_eq_none.mp hq pr hprmem2.1
      exact this hprmem2.2
    · have hqp : q.2.Default = true := by
        have h2 := List.find?_some hq
        exact h2
      have hqmem : q ∈ c.Accounts.filter (fun p => p.2.Default) :=
        List.mem_filter.mpr ⟨List.mem_of_find?_eq_some hq, hqp⟩
      rw [hfilter] at hqmem
      rcases List.mem_singleton.mp hqmem with rfl
      rw [hq]
  · intro c pr hnone hacc
    unfold Config.DefaultAccount
    have hfind : c.Accounts.find? (fun p => p.2.Default) = none := by
      rw [List.find?_eq_none]
      intro p hp
      simp [hnone p hp]
    rw [hfind, hacc]
    rfl
  · intro c hnone hlen
    unfold Config.DefaultAccount
    have hfind : c.Accounts.find? (fun p => p.2.Default) = none := by
      rw [List.find?_eq_none]
      intro p hp
      simp [hnone p hp]
    rw [hfind, if_neg (by omega)]

/-- Witness for C5: the three clauses at concrete configurations — one of
three accounts flagged, a single unflagged account, three unflagged
accounts. -/
theorem c5_witness :
    cfg5a.DefaultAccount = some (acctDef, "two") ∧
    cfg5b.DefaultAccount = some (acctPlainA, "solo") ∧
    cfg5c.DefaultAccount = none :=
  ⟨c5_default_resolution.1 cfg5a ("two", acctDef) (by decide),
   c5_default_resolution.2.1 cfg5b ("solo", acctPlainA) (by decide) (by decide),
   c5_default_resolution.2.2 cfg5c (by decide) (by decide)⟩

/-! ### C3 and C4: the per-repo filter -/

/-- C3 (amended): on the example account, resolving `work.backend.api` keeps
the repo `api` at `work.backend` but ALSO its sibling `worker` — the per-repo
rejection at the end of `GetRepos` only fires when the filter is more than one
segment deeper than the path key, and `work.backend.api` is exactly one
segment deeper than `work.backend`; nothing from `personal` is returned. -/
theorem c3_single_repo_filter :
    acct3.GetRepos "/home/u" "work.backend.api" =
      [⟨repoApi, "work.backend", "/home/u/Projects/work/backend/api", "api"⟩,
       ⟨repoWorker, "work.backend", "/home/u/Projects/work/backend/worker", "worker"⟩] := rfl

/-- Counterexample to C3 as stated: the same resolution returns two records
(`api` and `worker`), not exactly the one named `api`. -/
theorem c3_counterexample :
    (acct3.GetRepos "/home/u" "work.backend.api").map (fun r => r.Name) =
      ["api", "worker"] ∧
    (acct3.GetRepos "/home/u" "work.backend.api").length ≠ 1 :=
  ⟨rfl, by decide⟩

theorem stringsJoin_cons (a : String) (l : List String) (h : l ≠ []) :
    stringsJoin (a :: l) "." = a ++ "." ++ stringsJoin l "." := by
  cases l with
  | nil => exact absurd rfl h
  | cons b t => rfl

theorem stringsJoin_dropLast_getLast :
    ∀ (a b : String) (t : List String),
      stringsJoin ((a :: b :: t).dropLast) "." ++ "." ++ (a :: b :: t).getLastD "" =
        stringsJoin (a :: b :: t) "."
  | a, b, [] => rfl
  | a, b, c :: t => by
    have ih := stringsJoin_dropLast_getLast b c t
    rw [show (a :: b :: c :: t).dropLast = a :: (b :: c :: t).dropLast from rfl,
      stringsJoin_cons a ((b :: c :: t).dropLast) (by simp),
      show (a :: b :: c :: t).getLastD "" = (b :: c :: t).getLastD "" from rfl,
      stringsJoin_cons a (b :: c :: t) (by simp), ← ih]
    simp [String.append_assoc]

theorem two_le_length_splitCh {sep : Char} :
    ∀ {l : List Char}, sep ∈ l → 2 ≤ (splitCh sep l).length := by
  intro l h
  induction l with
  | nil => cases h
  | cons c rest ih =>
    by_cases hc : c = sep
    · rw [hc, splitCh_cons_sep]
      rcases hr : splitCh sep rest with _ | ⟨h1, t⟩
      · exact absurd hr (splitCh_ne_nil sep rest)
      · simp
    · have hmem : sep ∈ rest := by
        rcases List.mem_cons.mp h with h2 | h2
        · exact absurd h2.symm hc
        · exact h2
      rcases hr : splitCh sep rest with _ | ⟨h1, t⟩
      · exact absurd hr (splitCh_ne_nil sep rest)
      · rw [splitCh_cons_ne hc hr]
        have := ih hmem
        rw [hr] at this
        simpa using this

theorem two_le_length_stringsSplit {f : String}
    (hdot : stringsContainsChar f '.' = true) :
    2 ≤ (stringsSplit f '.').length := by
  unfold stringsSplit
  rw [List.length_map]
  apply two_le_length_splitCh
  unfold stringsContainsChar at hdot
  rw [show f.data.contains '.' = f.data.elem '.' from rfl, List.elem_eq_mem] at hdot
  exact of_decide_eq_true hdot

theorem stringsHasPrefix_self (s : String) : stringsHasPrefix s s = true := by
  unfold stringsHasPrefix
  rw [List.isPrefixOf_iff_prefix]

theorem repoSkip_eq_false_iff (f P name : String) (hf : f ≠ "")
    (hdot : stringsContainsChar f '.' = true) :
    (repoSkip f P name = false ↔
      (stringsHasPrefix (P ++ "." ++ name) f = true ∨
        (stringsSplit f '.').length ≤ (stringsSplit P '.').length + 1)) := by
  unfold repoSkip
  rw [if_pos ⟨hf, hdot⟩]
  by_cases h1 : stringsHasPrefix (P ++ "." ++ name) f = true
  · rw [if_neg (by simp [h1])]
    simp [h1]
  · by_cases h2 : P ++ "." ++ name = f
    · exact absurd (h2 ▸ stringsHasPrefix_self f) h1
    · rw [if_pos ⟨by simpa using h1, h2⟩]
      have hlen2 : 2 ≤ (stringsSplit f '.').length := two_le_length_stringsSplit hdot
      have hinner : ¬ (stringsJoin ((stringsSplit f '.').take
          ((stringsSplit f '.').length - 1)) "." = P ∧
          (stringsSplit f '.').getLastD "" = name) := by
        rintro ⟨hP, hname⟩
        apply h2
        rcases hsp : stringsSplit f '.' with _ | ⟨x, xs⟩
        · exact absurd hsp (stringsSplit_ne_nil f '.')
        · rcases xs with _ | ⟨y, ys⟩
          · rw [hsp] at hlen2
            simp at hlen2
          · have hdl : (x :: y :: ys).take ((x :: y :: ys).length - 1) =
                (x :: y :: ys).dropLast := (List.dropLast_eq_take _).symm
            rw [hsp, hdl] at hP
            rw [hsp] at hname
            rw [← hP, ← hname, stringsJoin_dropLast_getLast]
            rw [← hsp, stringsJoin_stringsSplit]
      rw [if_pos (by
        by_contra hcon
        push_neg at hcon
        exact hinner ⟨hcon.1, hcon.2⟩)]
      constructor
      · intro hd
        right
        have := of_decide_eq_false hd
        omega
      · intro hd
        rcases hd with hd | hd
        · exact absurd hd h1
        · apply decide_eq_false
          omega

theorem mem_getRepos_iff (a : Account) (home f P : String) (rs : List Repo)
    (r : Repo) (hmem : (P, rs) ∈ a.Repos) (hr : r ∈ rs)
    (hskip : pathSkip f P = false) :
    ((∃ rwp ∈ a.GetRepos home f, rwp.Path = P ∧ rwp.Repo = r) ↔
      repoSkip f P (repoDisplayName r) = false) := by
  rw [getRepos_eq_flatMap]
  constructor
  · rintro ⟨rwp, hrwp, hpath, hrepo⟩
    rcases List.mem_flatMap.mp hrwp with ⟨q, hq, hin⟩
    by_cases hqskip : pathSkip f q.1 = true
    · rw [if_pos hqskip] at hin
      cases hin
    · rw [if_neg hqskip] at hin
      rcases List.mem_filterMap.mp hin with ⟨r2, hr2, heq⟩
      by_cases hsk : repoSkip f q.1 (repoDisplayName r2) = true
      · rw [if_pos hsk] at heq
        cases heq
      · rw [if_neg hsk] at heq
        have hrweq := Option.some.inj heq
        have hq1 : q.1 = P := by
          rw [← hrweq] at hpath
          exact hpath
        have hr2r : r2 = r := by
          rw [← hrweq] at hrepo
          exact hrepo
        rw [hq1, hr2r] at hsk
        exact Bool.eq_false_iff.mpr hsk
  · intro hsk
    refine ⟨⟨r, P, filepathJoin [ExpandPath home a.Root,
      stringsReplaceAllChar P '.' '/', repoDisplayName r], repoDisplayName r⟩,
      ?_, rfl, rfl⟩
    apply List.mem_flatMap.mpr
    refine ⟨(P, rs), hmem, ?_⟩
    rw [if_neg (by simp [hskip])]
    unfold pathContribution
    apply List.mem_filterMap.mpr
    exact ⟨r, hr, by rw [if_neg (by simp [hsk])]⟩

/-- C4 (amended): for a non-empty dotted filter `f` and a key `P` that `f`
extends (the "`P` prefixes the filter" branch), a repo at `P` is kept exactly
when `f` is a string prefix of (or equal to) `P + "." + resolvedName`, or `f`
has at most one more dot-segment than `P`; equivalently it is rejected exactly
when its qualified name diverges from the filter and the filter is more than
one segment deeper than `P`. -/
theorem c4_per_repo_filter (a : Account) (home f P : String) (rs : List Repo)
    (r : Repo) (hmem : (P, rs) ∈ a.Repos) (hr : r ∈ rs) (hf : f ≠ "")
    (hdot : stringsContainsChar f '.' = true)
    (hpre : stringsHasPrefix f P = true) :
    ((∃ rwp ∈ a.GetRepos home f, rwp.Path = P ∧ rwp.Repo = r) ↔
      (stringsHasPrefix (P ++ "." ++ repoDisplayName r) f = true ∨
        (stringsSplit f '.').length ≤ (stringsSplit P '.').length + 1)) := by
  have hskip : pathSkip f P = false := by
    simp [pathSkip, hpre]
  exact (mem_getRepos_iff a home f P rs r hmem hr hskip).trans
    (repoSkip_eq_false_iff f P (repoDisplayName r) hf hdot)

/-- Witness for C4: the amended rule applied to the repo `api` of the example
account under the filter `work.backend.api`. -/
theorem c4_witness :
    ((∃ rwp ∈ acct3.GetRepos "/home/u" "work.backend.api",
        rwp.Path = "work.backend" ∧ rwp.Repo = repoApi) ↔
      (stringsHasPrefix ("work.backend" ++ "." ++ repoDisplayName repoApi)
          "work.backend.api" = true ∨
        (stringsSplit "work.backend.api" '.').length ≤
          (stringsSplit "work.backend" '.').length + 1)) :=
  c4_per_repo_filter acct3 "/home/u" "work.backend.api" "work.backend"
    [repoApi, repoWorker] repoApi (by decide) (by decide) (by decide)
    (by decide) (by decide)

/-- Counterexample to C4 as stated: under the filter `work.backend.api` the
repo `worker` is kept although its qualified name `work.backend.worker` is
neither equal to the filter nor related to it by a string prefix in either
direction. -/
theorem c4_counterexample :
    (∃ rwp ∈ acct3.GetRepos "/home/u" "work.backend.api",
      rwp.Path = "work.backend" ∧ rwp.Repo = repoWorker) ∧
    stringsHasPrefix "work.backend.api"
      ("work.backend" ++ "." ++ repoDisplayName repoWorker) = false ∧
    stringsHasPrefix ("work.backend" ++ "." ++ repoDisplayName repoWorker)
      "work.backend.api" = false ∧
    ("work.backend" ++ "." ++ repoDisplayName repoWorker) ≠ "work.backend.api" := by
  refine ⟨⟨⟨repoWorker, "work.backend", "/home/u/Projects/work/backend/worker",
    "worker"⟩, ?_, rfl, rfl⟩, rfl, rfl, by decide⟩
  decide

/-! ### C8: determinism up to map iteration order -/

/-- C8 (amended): resolving the same repo map contents and filter through two
iteration orders yields the same resolved records up to order (a permutation).
The association list materialises one iteration order of the Go map; Go
deliberately randomises the order of every `range` over a map, so two
invocations on the same account may traverse the entries in different
orders. -/
theorem c8_resolution_up_to_order (home f : String) (a1 a2 : Account)
    (hroot : a1.Root = a2.Root) (hperm : a1.Repos.Perm a2.Repos) :
    (a1.GetRepos home f).Perm (a2.GetRepos home f) := by
  rw [getRepos_eq_flatMap, getRepos_eq_flatMap, hroot]
  exact hperm.flatMap_right _

/-- Witness for C8: the two iteration orders of the same two-entry repo map
resolve to permutations of each other. -/
theorem c8_witness : (acct8a.GetRepos "" "").Perm (acct8b.GetRepos "" "") :=
  c8_resolution_up_to_order "" "" acct8a acct8b rfl (by decide)

/-- Counterexample to C8 as stated: `acct8a` and `acct8b` are the same repo
map (equal entry sets, unique keys, same root) in two iteration orders, yet
the two resolved lists are not identical — their order differs. -/
theorem c8_counterexample :
    acct8a.Repos.Perm acct8b.Repos ∧
    (acct8a.Repos.map Prod.fst).Nodup ∧
    acct8a.Root = acct8b.Root ∧
    acct8a.GetRepos "" "" ≠ acct8b.GetRepos "" "" :=
  ⟨by decide, by decide, rfl, by decide⟩

/-! ### C9: completion paths -/

theorem foldl_addPath_spec (xs : List String) :
    ∀ st : List String × List String,
      st.1.Nodup → (∀ x, x ∈ st.2 ↔ x ∈ st.1) →
      ((xs.foldl addPath st).1.Nodup ∧
       (∀ x, x ∈ (xs.foldl addPath st).2 ↔ x ∈ (xs.foldl addPath st).1) ∧
       (∀ y, y ∈ (xs.foldl addPath st).1 ↔ y ∈ st.1 ∨ y ∈ xs)) := by
  induction xs with
  | nil =>
    intro st h1 h2
    exact ⟨h1, h2, fun y => by simp⟩
  | cons x rest ih =>
    intro st h1 h2
    by_cases hc : st.2.contains x = true
    · have hxmem : x ∈ st.2 := by
        rw [show st.2.contains x = st.2.elem x from rfl, List.elem_eq_mem] at hc
        exact of_decide_eq_true hc
      have hax : addPath st x = st := by simp [addPath, hxmem]
      rw [List.foldl_cons, hax]
      rcases ih st h1 h2 with ⟨n1, n2, n3⟩
      refine ⟨n1, n2, fun y => ?_⟩
      rw [n3 y]
      have hxs : x ∈ st.1 := (h2 x).mp hxmem
      constructor
      · rintro (h | h)
        · exact Or.inl h
        · exact Or.inr (List.mem_cons_of_mem x h)
      · rintro (h | h)
        · exact Or.inl h
        · rcases List.mem_cons.mp h with rfl | h
          · exact Or.inl hxs
          · exact Or.inr h
    · have hxmem : x ∉ st.2 := by
        intro hm
        apply hc
        rw [show st.2.contains x = st.2.elem x from rfl, List.elem_eq_mem]
        exact decide_eq_true hm
      have hax : addPath st x = (st.1 ++ [x], x :: st.2) := by simp [addPath, hxmem]
      rw [List.foldl_cons, hax]
      have hx1 : x ∉ st.1 := fun hmem => hxmem ((h2 x).mpr hmem)
      have h1x : (st.1 ++ [x]).Nodup := by
        rw [List.nodup_append]
        exact ⟨h1, List.nodup_singleton x, by simpa using hx1⟩
      have h2x : ∀ z, z ∈ (st.1 ++ [x], x :: st.2).2 ↔ z ∈ (st.1 ++ [x], x :: st.2).1 := by
        intro z
        simp only [List.mem_cons, List.mem_append, List.mem_singleton, h2 z]
        tauto
      rcases ih _ h1x h2x with ⟨n1, n2, n3⟩
      refine ⟨n1, n2, fun y => ?_⟩
      rw [n3 y]
      simp only [List.mem_append, List.mem_singleton, List.mem_cons]
      tauto

theorem repoPathsStep_eq (st : List String × List String) (p : String × List Repo) :
    repoPathsStep st p =
      (p.1 :: p.2.map (fun r => p.1 ++ "." ++ repoDisplayName r)).foldl addPath st := by
  unfold repoPathsStep
  simp only [List.foldl_cons, List.foldl_map]

theorem repoPaths_eq_foldl (a : Account) :
    Account.RepoPaths a = ((a.Repos.flatMap (fun p =>
      p.1 :: p.2.map (fun r => p.1 ++ "." ++ repoDisplayName r))).foldl
        addPath ([], [])).1 := by
  unfold Account.RepoPaths
  suffices h : ∀ (l : List (String × List Repo)) (st : List String × List String),
      l.foldl repoPathsStep st = (l.flatMap (fun p =>
        p.1 :: p.2.map (fun r => p.1 ++ "." ++ repoDisplayName r))).foldl addPath st by
    rw [h]
  intro l
  induction l with
  | nil => intro st; rfl
  | cons p rest ih =>
    intro st
    rw [List.foldl_cons, List.flatMap_cons, List.foldl_append, repoPathsStep_eq, ih]

/-- C9 (amended): `RepoPaths` returns, each exactly once, precisely the
logical path keys of the repo tree together with the fully-qualified
`path.resolvedName` strings — but in map iteration order, not sorted; the
sorting the spec describes is applied by the caller (`sort.Strings` in
`complete.go`) before display. -/
theorem c9_repo_paths_set (a : Account) :
    (Account.RepoPaths a).Nodup ∧
    (∀ x, x ∈ Account.RepoPaths a ↔
      ∃ p ∈ a.Repos, x = p.1 ∨ ∃ r ∈ p.2, x = p.1 ++ "." ++ repoDisplayName r) := by
  rcases foldl_addPath_spec (a.Repos.flatMap (fun p =>
      p.1 :: p.2.map (fun r => p.1 ++ "." ++ repoDisplayName r))) ([], [])
      List.nodup_nil (by simp) with ⟨n1, _, n3⟩
  constructor
  · rw [repoPaths_eq_foldl]
    exact n1
  · intro x
    rw [repoPaths_eq_foldl, n3 x]
    simp only [List.not_mem_nil, false_or, List.mem_flatMap, List.mem_cons, List.mem_map]
    constructor
    · rintro ⟨p, hp, h | ⟨r, hr, rfl⟩⟩
      · exact ⟨p, hp, Or.inl h⟩
      · exact ⟨p, hp, Or.inr ⟨r, hr, rfl⟩⟩
    · rintro ⟨p, hp, h | ⟨r, hr, rfl⟩⟩
      · exact ⟨p, hp, Or.inl h⟩
      · exact ⟨p, hp, Or.inr ⟨r, hr, rfl⟩⟩

/-- Counterexample to C9 as stated: in the iteration order of `acct8a` the
output of `RepoPaths` is not lexicographically sorted (`goStrLe` is Go's
byte-wise string order, and the source applies no sort). -/
theorem c9_counterexample :
    Account.RepoPaths acct8a = ["b", "b.x", "a", "a.y"] ∧
    ¬ List.Pairwise (fun s t => goStrLe s t = true) (Account.RepoPaths acct8a) :=
  ⟨rfl, by decide⟩

end Arbol
